import Mathlib

/-
Verification of the ranked discussion-tree engine of carbocation/go.forum.

The engine (src/entry.go, src/entry_db.go) manipulates an intrusive
left-child/right-sibling tree of `Entry` nodes.  We embed the tree shallowly:
a Go `*Entry` pointer is an `ETree α` value (`nilE` for the nil pointer, and
`node v c s` for an entry with payload `v`, first-child pointer `c` and
next-sibling pointer `s`).  Sibling-chain mutation in the Go code always
rewrites the slot (parent's `child` field, or predecessor's `sibling` field)
through which the receiver is reachable, so the functional translation
rebuilds exactly that slot.

The Go `merge` loop and `mergeSort` recursion terminate because the chains
shrink; we translate them with an explicit fuel argument (chosen large enough,
and proved irrelevant) so that every definition is structurally recursive and
kernel-computable.

Scores (`float64` in Go) are idealised as real numbers; `math.Trunc` is
truncation toward zero and `math.Pow` is `Real.rpow`.  The wall-clock age
`time.Since(e.Created).Seconds()` is modelled as a per-node constant `age`,
i.e. the tree is evaluated at one fixed instant.

Parent pointers are modelled, where a claim needs them, by a separate map
from payloads to optional payloads, threaded through instrumented copies of
the operations that mirror exactly the parent-field assignments of the
source.
-/

namespace Forum

/-- A Go `*Entry` value: nil, or a node with payload, first child and next
sibling (src/entry.go line 45: `parent, child, sibling *Entry`). -/
inductive ETree (α : Type) where
  | nilE : ETree α
  | node (v : α) (child : ETree α) (sibling : ETree α) : ETree α
  deriving DecidableEq

namespace ETree

variable {α β : Type}

/-- Length of the sibling chain headed by this node (a measure used as fuel
for the linked-list merge sort of src/entry.go). -/
def chainLen : ETree α → Nat
  | nilE => 0
  | node _ _ s => chainLen s + 1

/-- Multiset of all payloads in the tree (everything reachable through
child/sibling links, as in the `walk` helper of src/entry_test.go). -/
def elems : ETree α → Multiset α
  | nilE => 0
  | node v c s => v ::ₘ (elems c + elems s)

/-- Whether this value is the nil pointer. -/
def isNil : ETree α → Bool
  | nilE => true
  | node _ _ _ => false

/-- Append of sibling chains: replaces the terminal nil sibling pointer of
`a` by `b`.  Used to state splitting/merging lemmas. -/
def chainApp : ETree α → ETree α → ETree α
  | nilE, b => b
  | node v c s, b => node v c (chainApp s b)

@[simp] theorem chainApp_nil_left (b : ETree α) : chainApp nilE b = b := rfl

@[simp] theorem chainApp_nil_right (a : ETree α) : chainApp a nilE = a := by
  induction a with
  | nilE => rfl
  | node v c s ihc ihs => simp [chainApp, ihs]

@[simp] theorem chainLen_chainApp (a b : ETree α) :
    chainLen (chainApp a b) = chainLen a + chainLen b := by
  induction a with
  | nilE => simp [chainApp, chainLen]
  | node v c s ihc ihs => simp [chainApp, chainLen, ihs]; omega

/-- The slow/fast split of src/entry.go `getMiddle` combined with the unlink
`middle.sibling = nil` of `mergeSort`: walks `fast` two links per step while
descending one link into the chain, and cuts the chain after the middle
node.  Returns the two half chains. -/
def spl : ETree α → ETree α → ETree α × ETree α
  | nilE, _ => (nilE, nilE)
  | node v c s, fast =>
    match fast with
    | node _ _ (node _ _ (node fv fc fs)) =>
      let p := spl s (node fv fc fs)
      (node v c p.1, p.2)
    | _ => (node v c nilE, s)

theorem spl_chainApp (t : ETree α) : ∀ fast, chainApp (spl t fast).1 (spl t fast).2 = t := by
  induction t with
  | nilE => intro fast; rfl
  | node v c s ihc ihs =>
    intro fast
    match fast with
    | nilE => simp [spl, chainApp]
    | node fv fc nilE => simp [spl, chainApp]
    | node fv fc (node gv gc nilE) => simp [spl, chainApp]
    | node fv fc (node gv gc (node hv hc hs)) =>
      simp [spl, chainApp, ihs (node hv hc hs)]

theorem spl_len (t : ETree α) :
    ∀ fast, chainLen (spl t fast).1 + chainLen (spl t fast).2 = chainLen t := by
  intro fast
  have h := congrArg chainLen (spl_chainApp t fast)
  simpa [chainLen_chainApp] using h

theorem spl_fst_pos (v : α) (c s : ETree α) (fast : ETree α) :
    1 ≤ chainLen (spl (node v c s) fast).1 := by
  match fast with
  | nilE => simp [spl, chainLen]
  | node fv fc nilE => simp [spl, chainLen]
  | node fv fc (node gv gc nilE) => simp [spl, chainLen]
  | node fv fc (node gv gc (node hv hc hs)) => simp [spl, chainLen]

theorem spl_snd_pos (t : ETree α) :
    ∀ fast, 1 ≤ chainLen fast → chainLen fast + 2 ≤ 2 * chainLen t →
      1 ≤ chainLen (spl t fast).2 := by
  induction t with
  | nilE => intro fast h1 h2; simp only [chainLen] at h2; omega
  | node v c s ihc ihs =>
    intro fast h1 h2
    match fast with
    | nilE => simp [chainLen] at h1
    | node fv fc nilE =>
      simp only [spl]
      simp only [chainLen] at h2 ⊢
      omega
    | node fv fc (node gv gc nilE) =>
      simp only [spl]
      simp only [chainLen] at h2 ⊢
      omega
    | node fv fc (node gv gc (node hv hc hs)) =>
      simp only [spl]
      have h1' : 1 ≤ chainLen (node hv hc hs) := by simp [chainLen]
      have h2' : chainLen (node hv hc hs) + 2 ≤ 2 * chainLen s := by
        simp [chainLen] at h2 ⊢; omega
      exact ihs (node hv hc hs) h1' h2'

end ETree

section Sorting

variable {α β : Type} [LinearOrder β]

open ETree

/-- Merge step of src/entry.go `merge`, with an explicit fuel argument so the
loop `for a != nil && b != nil` becomes structural recursion.  `key v c` is
the comparison key of a node (the Go `Score()`, which reads only the payload
and the child subtree); `b.Less(a)` is `key of b < key of a`.  When the
scores are equal the head of the second chain is emitted first, exactly as in
the source (`if b.Less(a)` takes from `a` only on strict inequality). -/
def mergeF (key : α → ETree α → β) : Nat → ETree α → ETree α → ETree α
  | 0, a, _ => a
  | _ + 1, nilE, b => b
  | _ + 1, node va ca sa, nilE => node va ca sa
  | n + 1, node va ca sa, node vb cb sb =>
    if key vb cb < key va ca then
      node va ca (mergeF key n sa (node vb cb sb))
    else
      node vb cb (mergeF key n (node va ca sa) sb)

/-- The merge of src/entry.go with adequate fuel (the combined chain length
bounds the number of loop iterations). -/
def merge (key : α → ETree α → β) (a b : ETree α) : ETree α :=
  mergeF key (chainLen a + chainLen b) a b

theorem chainLen_eq_zero {t : ETree α} (h : chainLen t = 0) : t = nilE := by
  cases t with
  | nilE => rfl
  | node v c s => simp [chainLen] at h

theorem mergeF_fuel (key : α → ETree α → β) :
    ∀ (n m : Nat) (a b : ETree α), chainLen a + chainLen b ≤ n →
      chainLen a + chainLen b ≤ m → mergeF key n a b = mergeF key m a b := by
  intro n
  induction n with
  | zero =>
    intro m a b hn hm
    have ha : chainLen a = 0 := by omega
    have hb : chainLen b = 0 := by omega
    cases chainLen_eq_zero ha
    cases chainLen_eq_zero hb
    cases m with
    | zero => rfl
    | succ m => rfl
  | succ n ih =>
    intro m a b hn hm
    cases m with
    | zero =>
      have ha : chainLen a = 0 := by omega
      have hb : chainLen b = 0 := by omega
      cases chainLen_eq_zero ha
      cases chainLen_eq_zero hb
      rfl
    | succ m =>
      cases a with
      | nilE => rfl
      | node va ca sa =>
        cases b with
        | nilE => rfl
        | node vb cb sb =>
          simp only [mergeF]
          by_cases h : key vb cb < key va ca
          · rw [if_pos h, if_pos h]
            have : chainLen sa + chainLen (node vb cb sb) ≤ n := by
              simp only [chainLen] at hn ⊢; omega
            have : chainLen sa + chainLen (node vb cb sb) ≤ m := by
              simp only [chainLen] at hm ⊢; omega
            rw [ih m sa (node vb cb sb) (by assumption) (by assumption)]
          · rw [if_neg h, if_neg h]
            have : chainLen (node va ca sa) + chainLen sb ≤ n := by
              simp only [chainLen] at hn ⊢; omega
            have : chainLen (node va ca sa) + chainLen sb ≤ m := by
              simp only [chainLen] at hm ⊢; omega
            rw [ih m (node va ca sa) sb (by assumption) (by assumption)]

theorem mergeF_eq_merge (key : α → ETree α → β) (n : Nat) (a b : ETree α)
    (h : chainLen a + chainLen b ≤ n) : mergeF key n a b = merge key a b :=
  mergeF_fuel key n (chainLen a + chainLen b) a b h (le_refl _)

@[simp] theorem merge_nil_left (key : α → ETree α → β) (b : ETree α) :
    merge key nilE b = b := by
  cases b with
  | nilE => rfl
  | node v c s => simp [merge, chainLen, mergeF]

@[simp] theorem merge_nil_right (key : α → ETree α → β) (a : ETree α) :
    merge key a nilE = a := by
  cases a with
  | nilE => rfl
  | node v c s => simp [merge, chainLen, mergeF]

theorem merge_node_node (key : α → ETree α → β) (va : α) (ca sa : ETree α)
    (vb : α) (cb sb : ETree α) :
    merge key (node va ca sa) (node vb cb sb) =
      if key vb cb < key va ca then
        node va ca (merge key sa (node vb cb sb))
      else
        node vb cb (merge key (node va ca sa) sb) := by
  show mergeF key (chainLen (node va ca sa) + chainLen (node vb cb sb)) _ _ = _
  have hl : chainLen (node va ca sa) + chainLen (node vb cb sb) =
      (chainLen sa + chainLen sb + 1) + 1 := by simp only [chainLen]; omega
  rw [hl]
  simp only [mergeF]
  by_cases h : key vb cb < key va ca
  · rw [if_pos h, if_pos h,
      mergeF_eq_merge key _ sa (node vb cb sb) (by simp only [chainLen]; omega)]
  · rw [if_neg h, if_neg h,
      mergeF_eq_merge key _ (node va ca sa) sb (by simp only [chainLen]; omega)]

/-- Linked-list merge sort of src/entry.go `mergeSort`, fueled: a chain of
length `n` needs recursion depth at most `n` because each half is strictly
shorter.  If the chain is empty or a singleton it is returned unchanged. -/
def mergeSortF (key : α → ETree α → β) : Nat → ETree α → ETree α
  | 0, e => e
  | n + 1, e =>
    match e with
    | nilE => nilE
    | node v c nilE => node v c nilE
    | node v c (node v2 c2 s2) =>
      let p := spl (node v c (node v2 c2 s2)) (node v c (node v2 c2 s2))
      merge key (mergeSortF key n p.1) (mergeSortF key n p.2)

/-- The mergeSort of src/entry.go with adequate fuel. -/
def mergeSort (key : α → ETree α → β) (e : ETree α) : ETree α :=
  mergeSortF key (chainLen e) e

theorem spl_halves_lt (v : α) (c : ETree α) (v2 : α) (c2 s2 : ETree α) :
    chainLen (spl (node v c (node v2 c2 s2)) (node v c (node v2 c2 s2))).1 <
        chainLen (node v c (node v2 c2 s2)) ∧
      chainLen (spl (node v c (node v2 c2 s2)) (node v c (node v2 c2 s2))).2 <
        chainLen (node v c (node v2 c2 s2)) := by
  have hlen := spl_len (node v c (node v2 c2 s2)) (node v c (node v2 c2 s2))
  have h1 := spl_fst_pos v c (node v2 c2 s2) (node v c (node v2 c2 s2))
  have h2 := spl_snd_pos (node v c (node v2 c2 s2)) (node v c (node v2 c2 s2))
    (by simp only [chainLen]; omega) (by simp only [chainLen]; omega)
  omega

theorem mergeSortF_fuel (key : α → ETree α → β) :
    ∀ (n m : Nat) (e : ETree α), chainLen e ≤ n → chainLen e ≤ m →
      mergeSortF key n e = mergeSortF key m e := by
  intro n
  induction n with
  | zero =>
    intro m e hn hm
    cases chainLen_eq_zero (Nat.le_zero.mp hn)
    cases m with
    | zero => rfl
    | succ m => rfl
  | succ n ih =>
    intro m e hn hm
    cases m with
    | zero =>
      cases chainLen_eq_zero (Nat.le_zero.mp hm)
      rfl
    | succ m =>
      match e with
      | nilE => rfl
      | node v c nilE => rfl
      | node v c (node v2 c2 s2) =>
        simp only [mergeSortF]
        have h := spl_halves_lt v c v2 c2 s2
        have hn' : chainLen (node v c (node v2 c2 s2)) ≤ n + 1 := hn
        have hm' : chainLen (node v c (node v2 c2 s2)) ≤ m + 1 := hm
        rw [ih m _ (by omega) (by omega), ih m _ (by omega) (by omega)]

theorem mergeSortF_eq_mergeSort (key : α → ETree α → β) (n : Nat) (e : ETree α)
    (h : chainLen e ≤ n) : mergeSortF key n e = mergeSort key e :=
  mergeSortF_fuel key n (chainLen e) e h (le_refl _)

@[simp] theorem mergeSort_nil (key : α → ETree α → β) :
    mergeSort key nilE = nilE := rfl

@[simp] theorem mergeSort_single (key : α → ETree α → β) (v : α) (c : ETree α) :
    mergeSort key (node v c nilE) = node v c nilE := rfl

theorem mergeSortF_succ (key : α → ETree α → β) (n : Nat) (v : α) (c : ETree α)
    (v2 : α) (c2 s2 : ETree α) :
    mergeSortF key (n + 1) (node v c (node v2 c2 s2)) =
      merge key
        (mergeSortF key n (spl (node v c (node v2 c2 s2)) (node v c (node v2 c2 s2))).1)
        (mergeSortF key n (spl (node v c (node v2 c2 s2)) (node v c (node v2 c2 s2))).2) :=
  rfl

theorem mergeSort_cons2 (key : α → ETree α → β) (v : α) (c : ETree α)
    (v2 : α) (c2 s2 : ETree α) :
    mergeSort key (node v c (node v2 c2 s2)) =
      merge key
        (mergeSort key (spl (node v c (node v2 c2 s2)) (node v c (node v2 c2 s2))).1)
        (mergeSort key (spl (node v c (node v2 c2 s2)) (node v c (node v2 c2 s2))).2) := by
  show mergeSortF key (chainLen (node v c (node v2 c2 s2))) _ = _
  have hl : chainLen (node v c (node v2 c2 s2)) = (chainLen s2 + 1) + 1 := by
    simp only [chainLen]
  rw [hl, mergeSortF_succ]
  have h := spl_halves_lt v c v2 c2 s2
  rw [mergeSortF_eq_mergeSort key _ _ (by simp only [chainLen] at h ⊢; omega),
    mergeSortF_eq_mergeSort key _ _ (by simp only [chainLen] at h ⊢; omega)]

/-- The recursive pass of src/entry.go `Arrange`.  The Boolean records
whether the node is a chain head: the Go code sorts only when
`e.Parent() == nil || e.Parent().Sibling() != e`, which under the link
conventions of insertion (a node's parent field holds precisely the node
whose child or sibling field points at it) is true exactly when the node was
reached through a child link or is the root, and false when reached through a
sibling link.  The child is arranged first, then the sibling, then the chain
is sorted if this node heads it and has a sibling. -/
def ArrangeAux (key : α → ETree α → β) : Bool → ETree α → ETree α
  | _, nilE => nilE
  | isHead, node v c s =>
    let c2 := ArrangeAux key true c
    let s2 := ArrangeAux key false s
    if isHead && !s2.isNil then mergeSort key (node v c2 s2) else node v c2 s2

/-- Top-level `Arrange` of src/entry.go: the argument is a root (chain head). -/
def Arrange (key : α → ETree α → β) (t : ETree α) : ETree α :=
  ArrangeAux key true t

end Sorting

section Insertion

variable {α : Type}

open ETree

/-- src/entry.go `addSibling`: the new element (with its own sibling chain)
is spliced in immediately above `e`, rewriting the slot through which `e` was
reachable; the new element's saved sibling chain is then re-added above it,
one node at a time.  The three Go branches (root, first-child slot, sibling
slot) all perform this same splice on the slot, which the functional
translation rebuilds from the calling context.  A nil new element is a no-op
(`if newE == nil return`). -/
def addSibling : ETree α → ETree α → ETree α
  | e, nilE => e
  | e, node v c s => addSibling (node v c e) s

/-- src/entry.go `AddChild`: if the child slot is free the new entry becomes
the child, otherwise it is delegated to `addSibling` on the existing child
chain.  A nil receiver would dereference nil in Go; the model returns nil. -/
def AddChild : ETree α → ETree α → ETree α
  | nilE, _ => nilE
  | node v nilE s, u => node v u s
  | node v (node cv cc cs) s, u => node v (addSibling (node cv cc cs) u) s

theorem addSibling_elems (u : ETree α) :
    ∀ e, elems (addSibling e u) = elems e + elems u := by
  induction u with
  | nilE => intro e; simp [addSibling, elems]
  | node v c s ihc ihs =>
    intro e
    simp only [addSibling, ihs (node v c e)]
    simp only [elems, ← Multiset.singleton_add]
    abel

theorem AddChild_elems (v : α) (c s u : ETree α) :
    elems (AddChild (node v c s) u) = elems (node v c s) + elems u := by
  cases c with
  | nilE =>
    simp only [AddChild, elems, ← Multiset.singleton_add]
    abel
  | node cv cc cs =>
    simp only [AddChild, elems, addSibling_elems]
    simp only [elems, ← Multiset.singleton_add]
    abel

end Insertion

section Sortedness

variable {α β : Type} [LinearOrder β]

open ETree

/-- The head of the chain `t` (if any) has key at most `x`. -/
def headLe (key : α → ETree α → β) (x : β) : ETree α → Prop
  | nilE => True
  | node v c _ => key v c ≤ x

/-- Every sibling chain in the tree headed by `t` — the chain of `t` itself
and, recursively, every child chain — is ordered descending by key: each
node's key is at least its immediate next sibling's key. -/
def chainSorted (key : α → ETree α → β) : ETree α → Prop
  | nilE => True
  | node v c s => chainSorted key c ∧ chainSorted key s ∧ headLe key (key v c) s

/-- Every member of the chain headed by `t` has a fully sorted child tree
(but the chain of `t` itself need not be sorted). -/
def elemsOK (key : α → ETree α → β) : ETree α → Prop
  | nilE => True
  | node _ c s => chainSorted key c ∧ elemsOK key s

theorem merge_headLe (key : α → ETree α → β) (x : β) (a b : ETree α)
    (ha : headLe key x a) (hb : headLe key x b) : headLe key x (merge key a b) := by
  cases a with
  | nilE => simpa using hb
  | node va ca sa =>
    cases b with
    | nilE => simpa using ha
    | node vb cb sb =>
      rw [merge_node_node]
      by_cases h : key vb cb < key va ca
      · rw [if_pos h]; exact ha
      · rw [if_neg h]; exact hb

theorem merge_chainSorted_aux (key : α → ETree α → β) :
    ∀ (n : Nat) (a b : ETree α), chainLen a + chainLen b ≤ n →
      chainSorted key a → chainSorted key b → chainSorted key (merge key a b) := by
  intro n
  induction n with
  | zero =>
    intro a b hn ha hb
    cases chainLen_eq_zero (show chainLen a = 0 by omega)
    cases chainLen_eq_zero (show chainLen b = 0 by omega)
    simpa using ha
  | succ n ih =>
    intro a b hn ha hb
    cases a with
    | nilE => simpa using hb
    | node va ca sa =>
      cases b with
      | nilE => simpa using ha
      | node vb cb sb =>
        rw [merge_node_node]
        obtain ⟨hca, hsa, hha⟩ := ha
        obtain ⟨hcb, hsb, hhb⟩ := hb
        by_cases h : key vb cb < key va ca
        · rw [if_pos h]
          refine ⟨hca, ?_, ?_⟩
          · exact ih sa (node vb cb sb)
              (by simp only [chainLen] at hn ⊢; omega) hsa ⟨hcb, hsb, hhb⟩
          · exact merge_headLe key _ sa (node vb cb sb) hha (le_of_lt h)
        · rw [if_neg h]
          refine ⟨hcb, ?_, ?_⟩
          · exact ih (node va ca sa) sb
              (by simp only [chainLen] at hn ⊢; omega) ⟨hca, hsa, hha⟩ hsb
          · exact merge_headLe key _ (node va ca sa) sb (le_of_not_lt h) hhb

theorem merge_chainSorted (key : α → ETree α → β) (a b : ETree α)
    (ha : chainSorted key a) (hb : chainSorted key b) :
    chainSorted key (merge key a b) :=
  merge_chainSorted_aux key (chainLen a + chainLen b) a b (le_refl _) ha hb

theorem spl_elemsOK (key : α → ETree α → β) :
    ∀ (t : ETree α), elemsOK key t →
      ∀ fast, elemsOK key (spl t fast).1 ∧ elemsOK key (spl t fast).2 := by
  intro t
  induction t with
  | nilE => intro h fast; exact ⟨trivial, trivial⟩
  | node v c s ihc ihs =>
    intro h fast
    obtain ⟨hc, hs⟩ := h
    match fast with
    | nilE => exact ⟨⟨hc, trivial⟩, hs⟩
    | node fv fc nilE => exact ⟨⟨hc, trivial⟩, hs⟩
    | node fv fc (node gv gc nilE) => exact ⟨⟨hc, trivial⟩, hs⟩
    | node fv fc (node gv gc (node hv hc2 hs2)) =>
      have ih := ihs hs (node hv hc2 hs2)
      exact ⟨⟨hc, ih.1⟩, ih.2⟩

theorem mergeSort_chainSorted_aux (key : α → ETree α → β) :
    ∀ (n : Nat) (e : ETree α), chainLen e ≤ n → elemsOK key e →
      chainSorted key (mergeSort key e) := by
  intro n
  induction n with
  | zero =>
    intro e hn he
    cases chainLen_eq_zero (Nat.le_zero.mp hn)
    exact trivial
  | succ n ih =>
    intro e hn he
    match e with
    | nilE => exact trivial
    | node v c nilE =>
      rw [mergeSort_single]
      exact ⟨he.1, trivial, trivial⟩
    | node v c (node v2 c2 s2) =>
      rw [mergeSort_cons2]
      have hspl := spl_elemsOK key (node v c (node v2 c2 s2)) he
        (node v c (node v2 c2 s2))
      have hlt := spl_halves_lt v c v2 c2 s2
      have hn' : chainLen (node v c (node v2 c2 s2)) ≤ n + 1 := hn
      refine merge_chainSorted key _ _ ?_ ?_
      · exact ih _ (by omega) hspl.1
      · exact ih _ (by omega) hspl.2

theorem mergeSort_chainSorted (key : α → ETree α → β) (e : ETree α)
    (he : elemsOK key e) : chainSorted key (mergeSort key e) :=
  mergeSort_chainSorted_aux key (chainLen e) e (le_refl _) he

theorem ArrangeAux_sorted (key : α → ETree α → β) :
    ∀ t : ETree α, chainSorted key (ArrangeAux key true t) ∧
      elemsOK key (ArrangeAux key false t) := by
  intro t
  induction t with
  | nilE => exact ⟨trivial, trivial⟩
  | node v c s ihc ihs =>
    constructor
    · show chainSorted key (ArrangeAux key true (node v c s))
      simp only [ArrangeAux]
      cases hs2 : ArrangeAux key false s with
      | nilE => simpa [isNil] using (⟨ihc.1, trivial, trivial⟩ :
          chainSorted key (node v (ArrangeAux key true c) nilE))
      | node w d t2 =>
        simp only [isNil, Bool.and_true, Bool.not_false]
        refine mergeSort_chainSorted key _ ⟨ihc.1, ?_⟩
        rw [← hs2]
        exact ihs.2
    · show elemsOK key (ArrangeAux key false (node v c s))
      simp only [ArrangeAux, Bool.false_and, if_neg]
      exact ⟨ihc.1, ihs.2⟩

theorem Arrange_chainSorted (key : α → ETree α → β) (t : ETree α) :
    chainSorted key (Arrange key t) :=
  (ArrangeAux_sorted key t).1

end Sortedness

section StrictSorted

variable {α β : Type} [LinearOrder β]

open ETree

/-- The head of the chain `t` (if any) has key strictly below `x`. -/
def headLt (key : α → ETree α → β) (x : β) : ETree α → Prop
  | nilE => True
  | node v c _ => key v c < x

/-- Strict version of `chainSorted`: every sibling chain is strictly
descending by key — no two adjacent siblings tie. -/
def sSorted (key : α → ETree α → β) : ETree α → Prop
  | nilE => True
  | node v c s => sSorted key c ∧ sSorted key s ∧ headLt key (key v c) s

/-- Every member of the chain headed by `t` has key strictly below `x`. -/
def chainAllLt (key : α → ETree α → β) (x : β) : ETree α → Prop
  | nilE => True
  | node v c s => key v c < x ∧ chainAllLt key x s

theorem chainAllLt_of_le (key : α → ETree α → β) {x y : β} :
    ∀ t : ETree α, chainAllLt key x t → x ≤ y → chainAllLt key y t := by
  intro t
  induction t with
  | nilE => intro h hxy; exact trivial
  | node v c s ihc ihs =>
    intro h hxy
    exact ⟨lt_of_lt_of_le h.1 hxy, ihs h.2 hxy⟩

theorem sSorted_chainAllLt (key : α → ETree α → β) :
    ∀ (t : ETree α) (x : β), sSorted key t → headLt key x t → chainAllLt key x t := by
  intro t
  induction t with
  | nilE => intro x hs hh; exact trivial
  | node v c s ihc ihs =>
    intro x hs hh
    refine ⟨hh, ?_⟩
    exact chainAllLt_of_le key s (ihs (key v c) hs.2.1 hs.2.2) (le_of_lt hh)

theorem chainAllLt_chainApp (key : α → ETree α → β) (x : β) :
    ∀ a b : ETree α, chainAllLt key x (chainApp a b) ↔
      chainAllLt key x a ∧ chainAllLt key x b := by
  intro a b
  induction a with
  | nilE => simp [chainApp, chainAllLt]
  | node v c s ihc ihs =>
    simp only [chainApp, chainAllLt, ihs]
    tauto

theorem sSorted_chainApp (key : α → ETree α → β) :
    ∀ a b : ETree α, sSorted key (chainApp a b) → sSorted key a ∧ sSorted key b := by
  intro a
  induction a with
  | nilE => intro b h; exact ⟨trivial, h⟩
  | node v c s ihc ihs =>
    intro b h
    obtain ⟨hc, happ, hlt⟩ := h
    obtain ⟨hs, hb⟩ := ihs b happ
    refine ⟨⟨hc, hs, ?_⟩, hb⟩
    cases s with
    | nilE => exact trivial
    | node w d u => exact hlt

theorem merge_eq_chainApp_aux (key : α → ETree α → β) :
    ∀ (n : Nat) (a b : ETree α), chainLen a + chainLen b ≤ n →
      sSorted key (chainApp a b) → merge key a b = chainApp a b := by
  intro n
  induction n with
  | zero =>
    intro a b hn hs
    cases chainLen_eq_zero (show chainLen a = 0 by omega)
    cases chainLen_eq_zero (show chainLen b = 0 by omega)
    rfl
  | succ n ih =>
    intro a b hn hs
    cases a with
    | nilE => simp [chainApp]
    | node va ca sa =>
      cases b with
      | nilE => simp [chainApp]
      | node vb cb sb =>
        have hs' : sSorted key (node va ca (chainApp sa (node vb cb sb))) := hs
        obtain ⟨hca, happ, hlt⟩ := hs'
        have hall : chainAllLt key (key va ca) (chainApp sa (node vb cb sb)) :=
          sSorted_chainAllLt key _ _ happ hlt
        have hbhd : key vb cb < key va ca :=
          ((chainAllLt_chainApp key _ sa (node vb cb sb)).mp hall).2.1
        rw [merge_node_node, if_pos hbhd]
        show node va ca (merge key sa (node vb cb sb)) = chainApp (node va ca sa) _
        rw [ih sa (node vb cb sb) (by simp only [chainLen] at hn ⊢; omega) happ]
        rfl

theorem merge_eq_chainApp (key : α → ETree α → β) (a b : ETree α)
    (hs : sSorted key (chainApp a b)) : merge key a b = chainApp a b :=
  merge_eq_chainApp_aux key (chainLen a + chainLen b) a b (le_refl _) hs

theorem mergeSort_of_sSorted_aux (key : α → ETree α → β) :
    ∀ (n : Nat) (e : ETree α), chainLen e ≤ n → sSorted key e →
      mergeSort key e = e := by
  intro n
  induction n with
  | zero =>
    intro e hn hs
    cases chainLen_eq_zero (Nat.le_zero.mp hn)
    rfl
  | succ n ih =>
    intro e hn hs
    match e with
    | nilE => rfl
    | node v c nilE => rfl
    | node v c (node v2 c2 s2) =>
      rw [mergeSort_cons2]
      have happ := spl_chainApp (node v c (node v2 c2 s2)) (node v c (node v2 c2 s2))
      have hss : sSorted key
          (chainApp (spl (node v c (node v2 c2 s2)) (node v c (node v2 c2 s2))).1
            (spl (node v c (node v2 c2 s2)) (node v c (node v2 c2 s2))).2) := by
        rw [happ]; exact hs
      obtain ⟨h1, h2⟩ := sSorted_chainApp key _ _ hss
      have hlt := spl_halves_lt v c v2 c2 s2
      have hn' : chainLen (node v c (node v2 c2 s2)) ≤ n + 1 := hn
      rw [ih _ (by omega) h1, ih _ (by omega) h2]
      rw [merge_eq_chainApp key _ _ hss, happ]

theorem mergeSort_of_sSorted (key : α → ETree α → β) (e : ETree α)
    (hs : sSorted key e) : mergeSort key e = e :=
  mergeSort_of_sSorted_aux key (chainLen e) e (le_refl _) hs

theorem ArrangeAux_of_sSorted (key : α → ETree α → β) :
    ∀ t : ETree α, sSorted key t →
      ArrangeAux key true t = t ∧ ArrangeAux key false t = t := by
  intro t
  induction t with
  | nilE => exact fun _ => ⟨rfl, rfl⟩
  | node v c s ihc ihs =>
    intro hs
    have hc2 : ArrangeAux key true c = c := (ihc hs.1).1
    have hs2 : ArrangeAux key false s = s := (ihs hs.2.1).2
    constructor
    · show ArrangeAux key true (node v c s) = node v c s
      simp only [ArrangeAux, hc2, hs2]
      cases s with
      | nilE => simp [isNil]
      | node w d u =>
        simp only [isNil, Bool.and_true, Bool.not_false, if_pos]
        exact mergeSort_of_sSorted key _ hs
    · show ArrangeAux key false (node v c s) = node v c s
      simp [ArrangeAux, hc2, hs2]

theorem Arrange_of_sSorted (key : α → ETree α → β) (t : ETree α)
    (hs : sSorted key t) : Arrange key t = t :=
  (ArrangeAux_of_sSorted key t hs).1

end StrictSorted

section Score

open ETree

/-- The payload of an `Entry` (src/entry.go) as far as scoring is concerned:
title (used only for readable scenario statements), vote aggregates, and the
age in seconds — the value of `time.Since(e.Created).Seconds()` at the one
fixed instant at which the tree is evaluated. -/
structure Pay where
  title : String
  upvotes : Int
  downvotes : Int
  age : ℝ

/-- src/entry.go line 17: decay factor for childrens' scores. -/
noncomputable def DECAY : ℝ := 0.5

/-- src/entry.go `Points`: upvotes minus downvotes, 0 for a nil entry. -/
def pointsT : ETree Pay → Int
  | nilE => 0
  | node v _ _ => v.upvotes - v.downvotes

/-- src/entry.go `recursivePoints`: traverses both the child and the sibling
side from an entry and sums the points, decaying each hop by `DECAY`;
0 for a nil entry. -/
noncomputable def recursivePoints : ETree Pay → ℝ
  | nilE => 0
  | node v c s =>
    ((pointsT (node v c s) : Int) : ℝ) + DECAY * (recursivePoints c + recursivePoints s)

/-- Go `math.Trunc`: the integer value of `x`, rounding toward zero. -/
noncomputable def rtrunc (x : ℝ) : ℝ :=
  if 0 ≤ x then (⌊x⌋ : ℝ) else (⌈x⌉ : ℝ)

/-- src/entry.go `round`: `math.Trunc(exp*value)/exp` with
`exp = math.Pow(10, digits)`. -/
noncomputable def roundGo (value : ℝ) (digits : Nat) : ℝ :=
  rtrunc ((10 : ℝ) ^ ((digits : Nat) : ℝ) * value) / (10 : ℝ) ^ ((digits : Nat) : ℝ)

/-- The `childPoints` computed by src/entry.go `Score`: zero when there is no
child, otherwise `DECAY` times the recursive points of the child. -/
noncomputable def childPoints : ETree Pay → ℝ
  | nilE => 0
  | node v c s => DECAY * recursivePoints (node v c s)

/-- src/entry.go `score` (lines 179-185): the raw, untruncated score.
`time.Since(e.Created).Seconds()` is the payload's `age`. -/
noncomputable def score (v : Pay) (childPts : ℝ) : ℝ :=
  (((v.upvotes - v.downvotes : Int) : ℝ) + childPts + 1e-3) /
    (v.age / (60 * 60) + 2) ^ (1.8 : ℝ)

/-- src/entry.go `Score` for a non-nil entry with payload `v` and child `c`.
The sibling of the entry plays no role in its score, so the key used by the
merge sort is a function of the payload and the child subtree only. -/
noncomputable def ScoreV (v : Pay) (c : ETree Pay) : ℝ :=
  roundGo (score v (childPoints c)) 8

/-- src/entry.go `Score`, including the nil-receiver case (0). -/
noncomputable def ScoreT : ETree Pay → ℝ
  | nilE => 0
  | node v c _ => ScoreV v c

theorem rtrunc_mono {x y : ℝ} (h : x ≤ y) : rtrunc x ≤ rtrunc y := by
  unfold rtrunc
  by_cases hx : 0 ≤ x
  · rw [if_pos hx, if_pos (le_trans hx h)]
    exact_mod_cast Int.floor_le_floor h
  · rw [if_neg hx]
    by_cases hy : 0 ≤ y
    · rw [if_pos hy]
      have h1 : (⌈x⌉ : ℤ) ≤ 0 := Int.ceil_le.mpr (by exact_mod_cast le_of_not_le hx)
      have h2 : (0 : ℤ) ≤ ⌊y⌋ := Int.le_floor.mpr (by exact_mod_cast hy)
      exact_mod_cast le_trans h1 h2
    · rw [if_neg hy]
      exact_mod_cast Int.ceil_le_ceil h

theorem rtrunc_le_add_one (x : ℝ) : rtrunc x ≤ x + 1 := by
  unfold rtrunc
  by_cases hx : 0 ≤ x
  · rw [if_pos hx]
    linarith [Int.floor_le x]
  · rw [if_neg hx]
    linarith [Int.ceil_lt_add_one x]

theorem le_rtrunc_of_nonpos {x : ℝ} (h : x ≤ 0) : x ≤ rtrunc x := by
  unfold rtrunc
  by_cases hx : 0 ≤ x
  · rw [if_pos hx]
    have : x = 0 := le_antisymm h hx
    simp [this]
  · rw [if_neg hx]
    exact Int.le_ceil x

theorem pow8_real : (10 : ℝ) ^ ((8 : Nat) : ℝ) = 100000000 := by
  rw [Real.rpow_natCast]
  norm_num

theorem roundGo_mono {x y : ℝ} (d : Nat) (h : x ≤ y) : roundGo x d ≤ roundGo y d := by
  unfold roundGo
  have hp : (0 : ℝ) < (10 : ℝ) ^ ((d : Nat) : ℝ) :=
    Real.rpow_pos_of_pos (by norm_num) _
  apply div_le_div_of_nonneg_right ?_ (le_of_lt hp)
  exact rtrunc_mono (by nlinarith)

theorem roundGo8_lt {a b : ℝ} (ha : 0 ≤ a) (h : a + 1e-8 ≤ b) :
    roundGo a 8 < roundGo b 8 := by
  unfold roundGo
  rw [pow8_real]
  have hb : (0 : ℝ) ≤ b := by linarith
  have htra : rtrunc (100000000 * a) = (⌊(100000000 : ℝ) * a⌋ : ℝ) := by
    unfold rtrunc
    rw [if_pos (by nlinarith)]
  have htrb : rtrunc (100000000 * b) = (⌊(100000000 : ℝ) * b⌋ : ℝ) := by
    unfold rtrunc
    rw [if_pos (by nlinarith)]
  rw [htra, htrb]
  have hfl : ⌊(100000000 : ℝ) * a⌋ + 1 ≤ ⌊(100000000 : ℝ) * b⌋ := by
    have h1 : (100000000 : ℝ) * a + 1 ≤ 100000000 * b := by nlinarith
    have h2 : (⌊(100000000 : ℝ) * a⌋ : ℝ) + 1 ≤ 100000000 * b := by
      linarith [Int.floor_le ((100000000 : ℝ) * a)]
    have h3 : ((⌊(100000000 : ℝ) * a⌋ + 1 : ℤ) : ℝ) ≤ 100000000 * b := by
      push_cast
      linarith
    exact Int.le_floor.mpr h3
  have hcast : (⌊(100000000 : ℝ) * a⌋ : ℝ) < (⌊(100000000 : ℝ) * b⌋ : ℝ) := by
    exact_mod_cast Int.lt_iff_add_one_le.mpr hfl
  exact (div_lt_div_iff_of_pos_right (by norm_num)).mpr hcast

end Score

section PairEval

variable {α β : Type} [LinearOrder β]

open ETree

theorem mergeSort_pair_lt (key : α → ETree α → β) (v1 : α) (c1 : ETree α)
    (v2 : α) (c2 : ETree α) (h : key v2 c2 < key v1 c1) :
    mergeSort key (node v1 c1 (node v2 c2 nilE)) =
      node v1 c1 (node v2 c2 nilE) := by
  rw [mergeSort_cons2]
  show merge key (mergeSort key (node v1 c1 nilE)) (mergeSort key (node v2 c2 nilE)) = _
  rw [mergeSort_single, mergeSort_single, merge_node_node, if_pos h, merge_nil_left]

theorem mergeSort_pair_ge (key : α → ETree α → β) (v1 : α) (c1 : ETree α)
    (v2 : α) (c2 : ETree α) (h : ¬ key v2 c2 < key v1 c1) :
    mergeSort key (node v1 c1 (node v2 c2 nilE)) =
      node v2 c2 (node v1 c1 nilE) := by
  rw [mergeSort_cons2]
  show merge key (mergeSort key (node v1 c1 nilE)) (mergeSort key (node v2 c2 nilE)) = _
  rw [mergeSort_single, mergeSort_single, merge_node_node, if_neg h, merge_nil_right]

theorem ArrangeAux_nilE (key : α → ETree α → β) (b : Bool) :
    ArrangeAux key b nilE = nilE := rfl

theorem ArrangeAux_false_node (key : α → ETree α → β) (v : α) (c s : ETree α) :
    ArrangeAux key false (node v c s) =
      node v (ArrangeAux key true c) (ArrangeAux key false s) := by
  simp [ArrangeAux]

theorem ArrangeAux_true_nilS (key : α → ETree α → β) (v : α) (c : ETree α) :
    ArrangeAux key true (node v c nilE) =
      node v (ArrangeAux key true c) nilE := by
  simp [ArrangeAux, isNil]

theorem ArrangeAux_true_node (key : α → ETree α → β) (v : α) (c s : ETree α)
    (w : α) (d t2 : ETree α) (hs : ArrangeAux key false s = node w d t2) :
    ArrangeAux key true (node v c s) =
      mergeSort key (node v (ArrangeAux key true c) (node w d t2)) := by
  simp [ArrangeAux, hs, isNil]

end PairEval

section ScoreFacts

open ETree

theorem rpow18_gt_two : (2 : ℝ) < (2 : ℝ) ^ (1.8 : ℝ) := by
  have h : (2 : ℝ) ^ (1 : ℝ) < (2 : ℝ) ^ (1.8 : ℝ) :=
    Real.rpow_lt_rpow_of_exponent_lt (by norm_num) (by norm_num)
  calc (2 : ℝ) = (2 : ℝ) ^ (1 : ℝ) := (Real.rpow_one 2).symm
    _ < (2 : ℝ) ^ (1.8 : ℝ) := h

theorem rpow18_lt_four : (2 : ℝ) ^ (1.8 : ℝ) < 4 := by
  have h : (2 : ℝ) ^ (1.8 : ℝ) < (2 : ℝ) ^ ((2 : ℕ) : ℝ) :=
    Real.rpow_lt_rpow_of_exponent_lt (by norm_num) (by norm_num)
  have h2 : (2 : ℝ) ^ ((2 : ℕ) : ℝ) = 4 := by
    rw [Real.rpow_natCast]
    norm_num
  linarith

theorem rpow18_gt_fifty : (50 : ℝ) < (50 : ℝ) ^ (1.8 : ℝ) := by
  have h : (50 : ℝ) ^ (1 : ℝ) < (50 : ℝ) ^ (1.8 : ℝ) :=
    Real.rpow_lt_rpow_of_exponent_lt (by norm_num) (by norm_num)
  calc (50 : ℝ) = (50 : ℝ) ^ (1 : ℝ) := (Real.rpow_one 50).symm
    _ < (50 : ℝ) ^ (1.8 : ℝ) := h

theorem rpow18_pos {x : ℝ} (h : 0 < x) : 0 < x ^ (1.8 : ℝ) :=
  Real.rpow_pos_of_pos h _

theorem roundGo8_le (x : ℝ) : roundGo x 8 ≤ x + 1e-8 := by
  unfold roundGo
  rw [pow8_real]
  have h := rtrunc_le_add_one ((100000000 : ℝ) * x)
  have : rtrunc ((100000000 : ℝ) * x) / 100000000 ≤ ((100000000 : ℝ) * x + 1) / 100000000 :=
    div_le_div_of_nonneg_right h (by norm_num)
  calc rtrunc ((100000000 : ℝ) * x) / 100000000 ≤ ((100000000 : ℝ) * x + 1) / 100000000 := this
    _ = x + 1e-8 := by ring

theorem roundGo8_ge_of_nonpos {x : ℝ} (h : x ≤ 0) : x ≤ roundGo x 8 := by
  unfold roundGo
  rw [pow8_real]
  have h1 : (100000000 : ℝ) * x ≤ 0 := by nlinarith
  have h2 := le_rtrunc_of_nonpos h1
  have : (100000000 : ℝ) * x / 100000000 ≤ rtrunc ((100000000 : ℝ) * x) / 100000000 :=
    div_le_div_of_nonneg_right h2 (by norm_num)
  calc x = (100000000 : ℝ) * x / 100000000 := by ring
    _ ≤ rtrunc ((100000000 : ℝ) * x) / 100000000 := this

/-- Comparison of two truncated scores with the age-zero denominator `2^1.8`:
a numerator gap of at least 1 survives the truncation to 8 digits. -/
theorem score0_lt {x y : ℝ} (hx : 0 ≤ x) (hxy : x + 1 ≤ y) :
    roundGo (x / (2 : ℝ) ^ (1.8 : ℝ)) 8 < roundGo (y / (2 : ℝ) ^ (1.8 : ℝ)) 8 := by
  have h2 := rpow18_gt_two
  have h4 := rpow18_lt_four
  have hdpos : (0 : ℝ) < (2 : ℝ) ^ (1.8 : ℝ) := by linarith
  apply roundGo8_lt (div_nonneg hx (le_of_lt hdpos))
  have hnum : x + 1e-8 * ((2 : ℝ) ^ (1.8 : ℝ)) ≤ y := by nlinarith
  calc x / (2 : ℝ) ^ (1.8 : ℝ) + 1e-8
      = (x + 1e-8 * ((2 : ℝ) ^ (1.8 : ℝ))) / (2 : ℝ) ^ (1.8 : ℝ) := by
        field_simp
    _ ≤ y / (2 : ℝ) ^ (1.8 : ℝ) := div_le_div_of_nonneg_right hnum (le_of_lt hdpos)

/-- The score of a node with payload `⟨ti, u, d, 0⟩` (age zero) and child
tree `c`. -/
theorem ScoreV_age0 (ti : String) (u d : Int) (c : ETree Pay) :
    ScoreV ⟨ti, u, d, 0⟩ c =
      roundGo ((((u - d : Int) : ℝ) + childPoints c + 1e-3) / (2 : ℝ) ^ (1.8 : ℝ)) 8 := by
  unfold ScoreV score
  norm_num

end ScoreFacts

section Scenario

open ETree

/-- The payloads of the scenario of src/entry_test.go `makeUnsortedTree`,
named with the letters of the specification: root R with 0 points, then
children A (0), B (1), C (2, with children D = 9 and E = 10), F (3), all
with age 0 (the test builds and arranges the tree at one instant). -/
def payR : Pay := ⟨"Root", 0, 0, 0⟩

def payA : Pay := ⟨"A", 0, 0, 0⟩

def payB : Pay := ⟨"B", 1, 0, 0⟩

def payC : Pay := ⟨"C", 2, 0, 0⟩

def payD : Pay := ⟨"D", 9, 0, 0⟩

def payE : Pay := ⟨"E", 10, 0, 0⟩

def payF : Pay := ⟨"F", 3, 0, 0⟩

/-- The child chain of C after its two `AddChild` calls: E was inserted after
D, so it heads the chain. -/
def cChild : ETree Pay := node payE nilE (node payD nilE nilE)

/-- The scenario tree, built exactly as in src/entry_test.go: the root
receives A, then B, then C (which already carries D and E), then F. -/
def treeC3 : ETree Pay :=
  AddChild
    (AddChild
      (AddChild
        (AddChild (node payR nilE nilE) (node payA nilE nilE))
        (node payB nilE nilE))
      (AddChild (AddChild (node payC nilE nilE) (node payD nilE nilE))
        (node payE nilE nilE)))
    (node payF nilE nilE)

/-- Pre-order child-then-sibling walk of the titles, as in the `walk`
helper of src/entry_test.go. -/
def walkTitles : ETree Pay → List String
  | nilE => []
  | node v c s => v.title :: (walkTitles c ++ walkTitles s)

theorem treeC3_eq : treeC3 =
    node payR
      (node payF nilE
        (node payC cChild (node payB nilE (node payA nilE nilE)))) nilE := rfl

theorem childPoints_cChild : childPoints cChild = 7.25 := by
  norm_num [cChild, childPoints, recursivePoints, pointsT, DECAY, payE, payD]

theorem scoreDE : ScoreV payD nilE < ScoreV payE nilE := by
  show ScoreV ⟨"D", 9, 0, 0⟩ nilE < ScoreV ⟨"E", 10, 0, 0⟩ nilE
  rw [ScoreV_age0, ScoreV_age0]
  apply score0_lt <;> norm_num [childPoints]

theorem scoreFC : ScoreV payF nilE < ScoreV payC cChild := by
  show ScoreV ⟨"F", 3, 0, 0⟩ nilE < ScoreV ⟨"C", 2, 0, 0⟩ cChild
  rw [ScoreV_age0, ScoreV_age0, childPoints_cChild]
  apply score0_lt <;> norm_num [childPoints]

theorem scoreAB : ScoreV payA nilE < ScoreV payB nilE := by
  show ScoreV ⟨"A", 0, 0, 0⟩ nilE < ScoreV ⟨"B", 1, 0, 0⟩ nilE
  rw [ScoreV_age0, ScoreV_age0]
  apply score0_lt <;> norm_num [childPoints]

theorem scoreBC : ScoreV payB nilE < ScoreV payC cChild := by
  show ScoreV ⟨"B", 1, 0, 0⟩ nilE < ScoreV ⟨"C", 2, 0, 0⟩ cChild
  rw [ScoreV_age0, ScoreV_age0, childPoints_cChild]
  apply score0_lt <;> norm_num [childPoints]

theorem scoreBF : ScoreV payB nilE < ScoreV payF nilE := by
  show ScoreV ⟨"B", 1, 0, 0⟩ nilE < ScoreV ⟨"F", 3, 0, 0⟩ nilE
  rw [ScoreV_age0, ScoreV_age0]
  apply score0_lt <;> norm_num [childPoints]

theorem arrange_cChild : ArrangeAux ScoreV true cChild = cChild := by
  show ArrangeAux ScoreV true (node payE nilE (node payD nilE nilE)) = cChild
  rw [ArrangeAux_true_node ScoreV payE nilE (node payD nilE nilE) payD nilE nilE
    (by rw [ArrangeAux_false_node, ArrangeAux_nilE, ArrangeAux_nilE])]
  rw [ArrangeAux_nilE]
  exact mergeSort_pair_lt ScoreV payE nilE payD nilE scoreDE

theorem arrange_treeC3 : Arrange ScoreV treeC3 =
    node payR
      (node payC cChild (node payF nilE (node payB nilE (node payA nilE nilE))))
      nilE := by
  rw [show Arrange ScoreV treeC3 = ArrangeAux ScoreV true treeC3 from rfl, treeC3_eq]
  have hA : ArrangeAux ScoreV false (node payA nilE nilE) = node payA nilE nilE := by
    rw [ArrangeAux_false_node, ArrangeAux_nilE, ArrangeAux_nilE]
  have hB : ArrangeAux ScoreV false (node payB nilE (node payA nilE nilE)) =
      node payB nilE (node payA nilE nilE) := by
    rw [ArrangeAux_false_node, ArrangeAux_nilE, hA]
  have hRest : ArrangeAux ScoreV false
      (node payC cChild (node payB nilE (node payA nilE nilE))) =
      node payC cChild (node payB nilE (node payA nilE nilE)) := by
    rw [ArrangeAux_false_node, arrange_cChild, hB]
  rw [ArrangeAux_true_nilS]
  rw [ArrangeAux_true_node ScoreV payF nilE
    (node payC cChild (node payB nilE (node payA nilE nilE)))
    payC cChild (node payB nilE (node payA nilE nilE)) hRest]
  rw [ArrangeAux_nilE]
  have hms4 : mergeSort ScoreV
      (node payF nilE (node payC cChild (node payB nilE (node payA nilE nilE)))) =
      node payC cChild (node payF nilE (node payB nilE (node payA nilE nilE))) := by
    rw [mergeSort_cons2]
    show merge ScoreV
      (mergeSort ScoreV (node payF nilE (node payC cChild nilE)))
      (mergeSort ScoreV (node payB nilE (node payA nilE nilE))) = _
    rw [mergeSort_pair_ge ScoreV payF nilE payC cChild (not_lt.mpr (le_of_lt scoreFC))]
    rw [mergeSort_pair_lt ScoreV payB nilE payA nilE scoreAB]
    rw [merge_node_node, if_pos scoreBC]
    rw [merge_node_node, if_pos scoreBF, merge_nil_left]
  rw [hms4]

end Scenario

section SpecFormula

open ETree

/-- The score formula in the words of the specification (claim C4): the
points of the node plus the child aggregate plus 1e-3, divided by
(ageHours + 2) raised to the power 1.8 — ageHours being seconds since
creation divided by 3600 — with the result truncated toward zero to 8
decimal digits.  The child aggregate is `DECAY` times the recursive points
of the first child when a child exists and 0 otherwise. -/
noncomputable def scoreSpec (v : Pay) (c : ETree Pay) : ℝ :=
  let childAggregate : ℝ :=
    match c with
    | nilE => 0
    | node _ _ _ => DECAY * recursivePoints c
  let ageHours : ℝ := v.age / 3600
  rtrunc ((10 : ℝ) ^ (8 : Nat) *
      ((((pointsT (node v c nilE)) : Int) : ℝ) + childAggregate + 1e-3) /
        (ageHours + 2) ^ (1.8 : ℝ)) /
    (10 : ℝ) ^ (8 : Nat)

theorem ScoreT_eq_scoreSpec (v : Pay) (c s : ETree Pay) :
    ScoreT (node v c s) = scoreSpec v c := by
  unfold ScoreT ScoreV roundGo score scoreSpec pointsT
  have h8 : (10 : ℝ) ^ ((8 : Nat) : ℝ) = (10 : ℝ) ^ (8 : Nat) := Real.rpow_natCast 10 8
  rw [h8]
  cases c with
  | nilE =>
    simp only [childPoints]
    norm_num [mul_div_assoc]
  | node w d t2 =>
    simp only [childPoints]
    norm_num [mul_div_assoc]

end SpecFormula

section AgeDecay

open ETree

/-- A fresh entry with 5 net downvotes. -/
def payYoung : Pay := ⟨"young", 0, 5, 0⟩

/-- The same entry created 48 hours (172800 seconds) earlier. -/
def payOld : Pay := ⟨"old", 0, 5, 172800⟩

theorem scoreV_payYoung : ScoreV payYoung nilE =
    roundGo ((-4.999) / (2 : ℝ) ^ (1.8 : ℝ)) 8 := by
  show ScoreV ⟨"young", 0, 5, 0⟩ nilE = _
  rw [ScoreV_age0]
  norm_num [childPoints]

theorem scoreV_payOld : ScoreV payOld nilE =
    roundGo ((-4.999) / (50 : ℝ) ^ (1.8 : ℝ)) 8 := by
  unfold ScoreV score payOld
  norm_num [childPoints]

/-- With a negative numerator the younger entry scores strictly below the
older one: age decay shrinks the magnitude of a negative score. -/
theorem score_young_lt_old : ScoreV payYoung nilE < ScoreV payOld nilE := by
  rw [scoreV_payYoung, scoreV_payOld]
  have h2 := rpow18_gt_two
  have h4 := rpow18_lt_four
  have h50 := rpow18_gt_fifty
  have hdy : (0 : ℝ) < (2 : ℝ) ^ (1.8 : ℝ) := by linarith
  have hdo : (0 : ℝ) < (50 : ℝ) ^ (1.8 : ℝ) := by linarith
  have hsy : (-4.999 : ℝ) / (2 : ℝ) ^ (1.8 : ℝ) < -1.24975 := by
    rw [div_lt_iff₀ hdy]
    nlinarith
  have hso : (-0.09998 : ℝ) < (-4.999) / (50 : ℝ) ^ (1.8 : ℝ) := by
    rw [lt_div_iff₀ hdo]
    nlinarith
  have hy2 := roundGo8_le ((-4.999) / (2 : ℝ) ^ (1.8 : ℝ))
  have ho2 : (-4.999) / (50 : ℝ) ^ (1.8 : ℝ) ≤
      roundGo ((-4.999) / (50 : ℝ) ^ (1.8 : ℝ)) 8 :=
    roundGo8_ge_of_nonpos (le_of_lt (div_neg_of_neg_of_pos (by norm_num) hdo))
  linarith

/-- Monotone decay for nonnegative numerators: same votes, same child tree,
the younger (not older) of two entries scores at least as high. -/
theorem score_age_mono (t1 t2 : String) (u d : Int) (c : ETree Pay) (a1 a2 : ℝ)
    (h1 : 0 ≤ a1) (h12 : a1 ≤ a2)
    (hnum : 0 ≤ (((u - d : Int)) : ℝ) + childPoints c + 1e-3) :
    ScoreV ⟨t2, u, d, a2⟩ c ≤ ScoreV ⟨t1, u, d, a1⟩ c := by
  unfold ScoreV score
  apply roundGo_mono
  have hb1 : (0 : ℝ) < a1 / (60 * 60) + 2 := by
    have := div_nonneg h1 (by norm_num : (0 : ℝ) ≤ 60 * 60)
    linarith
  have hb2 : (0 : ℝ) < a2 / (60 * 60) + 2 := by
    have := div_nonneg (le_trans h1 h12) (by norm_num : (0 : ℝ) ≤ 60 * 60)
    linarith
  have hble : a1 / (60 * 60) + 2 ≤ a2 / (60 * 60) + 2 := by
    have : a1 / (60 * 60) ≤ a2 / (60 * 60) :=
      div_le_div_of_nonneg_right h12 (by norm_num)
    linarith
  have hpow : (a1 / (60 * 60) + 2) ^ (1.8 : ℝ) ≤ (a2 / (60 * 60) + 2) ^ (1.8 : ℝ) :=
    Real.rpow_le_rpow (le_of_lt hb1) hble (by norm_num)
  have hp1 : (0 : ℝ) < (a1 / (60 * 60) + 2) ^ (1.8 : ℝ) := rpow18_pos hb1
  exact div_le_div_of_nonneg_left hnum hp1 hpow |>.trans_eq rfl

end AgeDecay

section TieBreak

open ETree

/-- Two sibling entries identical except for the title: their truncated
scores tie. -/
def payX : Pay := ⟨"X", 0, 0, 0⟩

def payY : Pay := ⟨"Y", 0, 0, 0⟩

/-- A root with two equal-score children X then Y. -/
def treeTie : ETree Pay := node payR (node payX nilE (node payY nilE nilE)) nilE

theorem scoreXY : ScoreV payX nilE = ScoreV payY nilE := rfl

theorem arrange_treeTie : Arrange ScoreV treeTie =
    node payR (node payY nilE (node payX nilE nilE)) nilE := by
  show ArrangeAux ScoreV true
    (node payR (node payX nilE (node payY nilE nilE)) nilE) = _
  rw [ArrangeAux_true_nilS]
  rw [ArrangeAux_true_node ScoreV payX nilE (node payY nilE nilE) payY nilE nilE
    (by rw [ArrangeAux_false_node, ArrangeAux_nilE, ArrangeAux_nilE])]
  rw [ArrangeAux_nilE]
  rw [mergeSort_pair_ge ScoreV payX nilE payY nilE (not_lt.mpr (le_of_eq scoreXY.symm))]

theorem arrange_arrange_treeTie :
    Arrange ScoreV (Arrange ScoreV treeTie) = treeTie := by
  rw [arrange_treeTie]
  show ArrangeAux ScoreV true
    (node payR (node payY nilE (node payX nilE nilE)) nilE) = _
  rw [ArrangeAux_true_nilS]
  rw [ArrangeAux_true_node ScoreV payY nilE (node payX nilE nilE) payX nilE nilE
    (by rw [ArrangeAux_false_node, ArrangeAux_nilE, ArrangeAux_nilE])]
  rw [ArrangeAux_nilE]
  rw [mergeSort_pair_ge ScoreV payY nilE payX nilE (not_lt.mpr (le_of_eq scoreXY))]
  rfl

theorem treeTie_ne_arrange : treeTie ≠ Arrange ScoreV treeTie := by
  rw [arrange_treeTie]
  intro h
  injection h with h1 h2 h3
  injection h2 with h4 h5 h6
  exact absurd (congrArg Pay.title h4) (by decide)

end TieBreak

section ParentLinks

variable {α β : Type} [DecidableEq α] [LinearOrder β]

open ETree

/-- A parent-pointer assignment: for each payload, the payload of the node
its `parent` field points at (`none` for a nil parent field).  Payloads act
as node identities, so trees whose payloads repeat are outside this model. -/
def pupd (pm : α → Option α) (a : α) (b : Option α) : α → Option α :=
  fun x => if x = a then b else pm x

/-- src/entry.go `addSibling` instrumented with the parent-field writes of
the source.  With a nil parent field only `e.parent = newE` is written
(first branch); otherwise `newE.parent = e.Parent()` and `e.parent = newE`
are written (second and third branches — both splice the same way, through
the first-child or the sibling slot respectively, which the functional
translation rebuilds from context).  A nil `e` would make the Go code
dereference nil; that case is unreachable from `AddChild`. -/
def addSibP (pm : α → Option α) : ETree α → ETree α → ETree α × (α → Option α)
  | e, nilE => (e, pm)
  | nilE, node _ _ _ => (nilE, pm)
  | node ev ec es, node v c s =>
    match pm ev with
    | none => addSibP (pupd pm ev (some v)) (node v c (node ev ec es)) s
    | some p =>
      addSibP (pupd (pupd pm v (some p)) ev (some v)) (node v c (node ev ec es)) s

/-- src/entry.go `AddChild` instrumented with parent-field writes: placing
`newE` into the free child slot writes `newE.parent = e`; otherwise the work
is delegated to `addSibP`.  The Go code would dereference a nil `newE`. -/
def AddChildP (pm : α → Option α) : ETree α → ETree α → ETree α × (α → Option α)
  | nilE, _ => (nilE, pm)
  | node v nilE s, nilE => (node v nilE s, pm)
  | node v nilE s, node uv uc us => (node v (node uv uc us) s, pupd pm uv (some v))
  | node v (node cv cc cs) s, u =>
    let r := addSibP pm (node cv cc cs) u
    (node v r.1 s, r.2)

/-- src/entry.go `mergeSort` instrumented with its single parent-field
write: `middle.sibling, sHalf.parent = nil, nil` clears the parent field of
the head of the second half.  The `merge` step performs no parent-field
write at all, so the plain `merge` is reused. -/
def mergeSortPF (key : α → ETree α → β) :
    Nat → (α → Option α) → ETree α → ETree α × (α → Option α)
  | 0, pm, e => (e, pm)
  | n + 1, pm, e =>
    match e with
    | nilE => (nilE, pm)
    | node v c nilE => (node v c nilE, pm)
    | node v c (node v2 c2 s2) =>
      let p := spl (node v c (node v2 c2 s2)) (node v c (node v2 c2 s2))
      let pm1 :=
        match p.2 with
        | nilE => pm
        | node rv _ _ => pupd pm rv none
      let r1 := mergeSortPF key n pm1 p.1
      let r2 := mergeSortPF key n r1.2 p.2
      (merge key r1.1 r2.1, r2.2)

def mergeSortP (key : α → ETree α → β) (pm : α → Option α) (e : ETree α) :
    ETree α × (α → Option α) :=
  mergeSortPF key (chainLen e) pm e

/-- src/entry.go `Arrange` instrumented with parent-field writes: the
reassignments `e.child = Arrange(...)` and `e.sibling = Arrange(...)` write
no parent field, so only `mergeSortP` touches the map. -/
def ArrangeAuxP (key : α → ETree α → β) :
    Bool → (α → Option α) → ETree α → ETree α × (α → Option α)
  | _, pm, nilE => (nilE, pm)
  | isHead, pm, node v c s =>
    let rc := ArrangeAuxP key true pm c
    let rs := ArrangeAuxP key false rc.2 s
    if isHead && !rs.1.isNil then mergeSortP key rs.2 (node v rc.1 rs.1)
    else (node v rc.1 rs.1, rs.2)

def ArrangeP (key : α → ETree α → β) (pm : α → Option α) (t : ETree α) :
    ETree α × (α → Option α) :=
  ArrangeAuxP key true pm t

/-- Mutual consistency of the parent assignment with the child/sibling
structure: a node reachable through the slot owned by `o` (the root slot for
`none`, the child or sibling field of node `o` otherwise) has its parent
field equal to `o`.  This is invariant 2 of the specification. -/
def consB (pm : α → Option α) : Option α → ETree α → Bool
  | _, nilE => true
  | o, node v c s => decide (pm v = o) && consB pm (some v) c && consB pm (some v) s

theorem consB_congr (pm pm2 : α → Option α) :
    ∀ (t : ETree α) (o : Option α), (∀ x ∈ elems t, pm x = pm2 x) →
      consB pm o t = consB pm2 o t := by
  intro t
  induction t with
  | nilE => intro o h; rfl
  | node v c s ihc ihs =>
    intro o h
    have hv : pm v = pm2 v := h v (by simp [elems])
    have hc : ∀ x ∈ elems c, pm x = pm2 x := fun x hx =>
      h x (by simp [elems]; exact Or.inr (Or.inl hx))
    have hs : ∀ x ∈ elems s, pm x = pm2 x := fun x hx =>
      h x (by simp [elems]; exact Or.inr (Or.inr hx))
    simp only [consB, hv, ihc (some v) hc, ihs (some v) hs]

/-- Insertion of a fresh, childless entry by `AddChild` preserves the mutual
consistency of parent, child and sibling links (on trees with pairwise
distinct payloads). -/
theorem AddChildP_consistent (pm : α → Option α) (t : ETree α) (o : Option α)
    (uv : α) (hcons : consB pm o t = true) (hnodup : (elems t).Nodup)
    (hfresh : uv ∉ elems t) :
    consB (AddChildP pm t (node uv nilE nilE)).2 o
      (AddChildP pm t (node uv nilE nilE)).1 = true := by
  cases t with
  | nilE => exact rfl
  | node v c s =>
    have hvne : v ≠ uv := by
      intro h
      exact hfresh (h ▸ (by simp [elems]))
    have hufs : uv ∉ elems s := fun hx =>
      hfresh (by simp [elems]; exact Or.inr (Or.inr hx))
    simp only [consB, Bool.and_eq_true, decide_eq_true_eq] at hcons
    obtain ⟨⟨hpo, hcc⟩, hcs⟩ := hcons
    cases c with
    | nilE =>
      show consB (pupd pm uv (some v)) o (node v (node uv nilE nilE) s) = true
      have hs' : consB (pupd pm uv (some v)) (some v) s = true := by
        rw [← consB_congr pm (pupd pm uv (some v)) s (some v) ?_]
        · exact hcs
        · intro x hx
          simp only [pupd]
          rw [if_neg]
          intro hxe
          exact hufs (hxe ▸ hx)
      simp only [consB, Bool.and_eq_true, decide_eq_true_eq]
      refine ⟨⟨?_, ⟨?_, trivial⟩, trivial⟩, hs'⟩
      · simp only [pupd, if_neg hvne]
        exact hpo
      · simp [pupd]
    | node cv cc cs =>
      simp only [consB, Bool.and_eq_true, decide_eq_true_eq] at hcc
      obtain ⟨⟨hpcv, hccc⟩, hccs⟩ := hcc
      simp only [elems] at hnodup
      obtain ⟨hvnotin, hrest⟩ := Multiset.nodup_cons.mp hnodup
      obtain ⟨hcons_nodup, hes_nodup, hdisj⟩ := Multiset.nodup_add.mp hrest
      have hcv_notin : cv ∉ elems cc + elems cs := (Multiset.nodup_cons.mp hcons_nodup).1
      have hcv_cc : cv ∉ elems cc := fun h => hcv_notin (Multiset.mem_add.mpr (Or.inl h))
      have hcv_cs : cv ∉ elems cs := fun h => hcv_notin (Multiset.mem_add.mpr (Or.inr h))
      have hcv_s : cv ∉ elems s :=
        Multiset.disjoint_left.mp hdisj (Multiset.mem_cons_self cv _)
      have hvcv : v ≠ cv := by
        intro h
        exact hvnotin (Multiset.mem_add.mpr (Or.inl (by
          rw [h]
          exact Multiset.mem_cons_self cv _)))
      have huvcv : uv ≠ cv := by
        intro h
        exact hfresh (by
          simp only [elems, h]
          exact Multiset.mem_cons_of_mem
            (Multiset.mem_add.mpr (Or.inl (Multiset.mem_cons_self cv _))))
      have hufcc : uv ∉ elems cc := fun hx =>
        hfresh (by
          simp only [elems]
          exact Multiset.mem_cons_of_mem (Multiset.mem_add.mpr
            (Or.inl (Multiset.mem_cons_of_mem (Multiset.mem_add.mpr (Or.inl hx))))))
      have hufcs : uv ∉ elems cs := fun hx =>
        hfresh (by
          simp only [elems]
          exact Multiset.mem_cons_of_mem (Multiset.mem_add.mpr
            (Or.inl (Multiset.mem_cons_of_mem (Multiset.mem_add.mpr (Or.inr hx))))))
      have hstep : addSibP pm (node cv cc cs) (node uv nilE nilE) =
          (node uv nilE (node cv cc cs), pupd (pupd pm uv (some v)) cv (some uv)) := by
        simp only [addSibP, hpcv]
      show consB (addSibP pm (node cv cc cs) (node uv nilE nilE)).2 o
        (node v (addSibP pm (node cv cc cs) (node uv nilE nilE)).1 s) = true
      rw [hstep]
      have hagree : ∀ x : α, x ≠ uv → x ≠ cv →
          pupd (pupd pm uv (some v)) cv (some uv) x = pm x := by
        intro x h1 h2
        simp only [pupd, if_neg h2, if_neg h1]
      have hcc' : consB (pupd (pupd pm uv (some v)) cv (some uv)) (some cv) cc = true := by
        rw [← consB_congr pm _ cc (some cv) fun x hx =>
          (hagree x (fun h => hufcc (h ▸ hx)) (fun h => hcv_cc (h ▸ hx))).symm]
        exact hccc
      have hcs' : consB (pupd (pupd pm uv (some v)) cv (some uv)) (some cv) cs = true := by
        rw [← consB_congr pm _ cs (some cv) fun x hx =>
          (hagree x (fun h => hufcs (h ▸ hx)) (fun h => hcv_cs (h ▸ hx))).symm]
        exact hccs
      have hs' : consB (pupd (pupd pm uv (some v)) cv (some uv)) (some v) s = true := by
        rw [← consB_congr pm _ s (some v) fun x hx =>
          (hagree x (fun h => hufs (h ▸ hx)) (fun h => hcv_s (h ▸ hx))).symm]
        exact hcs
      simp only [consB, Bool.and_eq_true, decide_eq_true_eq]
      refine ⟨⟨?_, ⟨⟨?_, trivial⟩, ⟨?_, hcc'⟩, hcs'⟩⟩, hs'⟩
      · rw [hagree v hvne hvcv]
        exact hpo
      · simp [pupd, huvcv]
      · simp [pupd]

end ParentLinks

section ParentCounterexample

open ETree

/-- Payloads act as node ids; the comparison key is the payload itself (the
parent-field writes mirrored in the instrumented operations do not depend on
the comparison outcome, so any key exhibits them). -/
def keyNat : Nat → ETree Nat → Nat := fun v _ => v

/-- The all-nil parent assignment for freshly created entries. -/
def pmNone : Nat → Option Nat := fun _ => none

/-- Root entry 0 receives fresh children 1 and then 2 through `AddChild`. -/
def buildP1 : ETree Nat × (Nat → Option Nat) :=
  AddChildP pmNone (node 0 nilE nilE) (node 1 nilE nilE)

def buildP2 : ETree Nat × (Nat → Option Nat) :=
  AddChildP buildP1.2 buildP1.1 (node 2 nilE nilE)

/-- The same tree after one `Arrange` pass. -/
def arrangedP : ETree Nat × (Nat → Option Nat) :=
  ArrangeP keyNat buildP2.2 buildP2.1

end ParentCounterexample

section Materialization

/-- The observable outcome of the tree-construction loop of
src/entry_db.go `getEntries`: normal completion, a returned Go error with
its message, or a runtime panic. -/
inductive BuildOutcome where
  | ok : BuildOutcome
  | goError (msg : String) : BuildOutcome
  | panicked : BuildOutcome
  deriving DecidableEq

/-- The keys of the `entries` map after the row-scan loop of
src/entry_db.go `getEntries` (lines 140-150): every scanned row stores its
entry under its own id, so the child id of every relationship is always
present; only an ancestor id can be absent. -/
def entriesKeys (rows : List (Int × Int)) : List Int := rows.map Prod.snd

/-- The construction loop of src/entry_db.go `getEntries` (lines 152-158)
over the (ancestorId, entryId) relationships: a self-relationship is
skipped; otherwise `entries[parentId].AddChild(entries[childId])` is
executed.  When the parent id is not a key of the map, the Go map lookup
yields a nil pointer and `AddChild` dereferences it (`e.child` on a nil
receiver), which panics; no error value is produced anywhere in the loop. -/
def linkRels (keys : List Int) : List (Int × Int) → BuildOutcome
  | [] => .ok
  | (p, c) :: rest =>
    if p = c then linkRels keys rest
    else if p ∈ keys then linkRels keys rest
    else .panicked

/-- Materialization of the tree from the scanned rows, as far as its error
behaviour is concerned. -/
def materializeRows (rows : List (Int × Int)) : BuildOutcome :=
  linkRels (entriesKeys rows) rows

theorem linkRels_panicked (keys : List Int) :
    ∀ l : List (Int × Int), (∃ pc ∈ l, pc.1 ≠ pc.2 ∧ pc.1 ∉ keys) →
      linkRels keys l = .panicked := by
  intro l
  induction l with
  | nil => rintro ⟨pc, hmem, _⟩; cases hmem
  | cons hd tl ih =>
    rintro ⟨pc, hmem, hne, hnk⟩
    obtain ⟨p, c⟩ := hd
    rcases List.mem_cons.mp hmem with heq | htl
    · subst heq
      simp only [linkRels, if_neg hne, if_neg hnk]
    · show linkRels keys ((p, c) :: tl) = .panicked
      simp only [linkRels]
      by_cases h1 : p = c
      · rw [if_pos h1]
        exact ih ⟨pc, htl, hne, hnk⟩
      · rw [if_neg h1]
        by_cases h2 : p ∈ keys
        · rw [if_pos h2]
          exact ih ⟨pc, htl, hne, hnk⟩
        · rw [if_neg h2]

end Materialization

section ChildCountModel

variable {α : Type}

open ETree

/-- src/entry.go `recursiveCount`: 0 for nil, else 1 plus the counts of the
child and of the sibling. -/
def recursiveCount : ETree α → Int
  | nilE => 0
  | node _ c s => 1 + recursiveCount c + recursiveCount s

/-- src/entry.go `Child` accessor. -/
def ChildOf : ETree α → ETree α
  | nilE => nilE
  | node _ c _ => c

/-- src/entry.go `ChildCount`, acting on the memoisation state of one entry:
its child tree, the cached `childCount`, and the `hasChildCount` flag.
Returns the value of the call and the state after it.  Exactly as in the
source, the branch taken when no cached value is flagged stores a freshly
computed count in `childCount` but never sets `hasChildCount`. -/
def ChildCount (child : ETree α) (childCount : Int) (hasChildCount : Bool) :
    Int × Int × Bool :=
  if !hasChildCount then
    (recursiveCount child, recursiveCount child, hasChildCount)
  else
    (childCount, childCount, hasChildCount)

theorem recursiveCount_eq_card : ∀ t : ETree α, recursiveCount t = ((elems t).card : Int) := by
  intro t
  induction t with
  | nilE => rfl
  | node v c s ihc ihs =>
    simp only [recursiveCount, elems, Multiset.card_cons, Multiset.card_add, ihc, ihs]
    push_cast
    ring

end ChildCountModel

section RootModel

variable {α : Type}

/-- src/entry.go `Root` (lines 52-59): return the receiver if its parent
field is nil, and otherwise the immediate parent — the parent chain is not
iterated.  The parent field is read from the parent assignment. -/
def Root (pm : α → Option α) (e : α) : α :=
  match pm e with
  | none => e
  | some p => p

/-- A concrete three-node parent chain 2 → 1 → 0 for the witness. -/
def pmChain : Nat → Option Nat :=
  fun n => if n = 2 then some 1 else if n = 1 then some 0 else none

end RootModel

section Claims

open ETree

/-- C1: for every finite tree, after running Arrange once, every sibling
chain at every depth is ordered descending by score — each node's `Score()`
is greater than or equal to its immediate next sibling's `Score()`
(`chainSorted` states exactly this, recursively for every chain). -/
theorem claim1_arrange_ordering (t : ETree Pay) :
    chainSorted ScoreV (Arrange ScoreV t) :=
  Arrange_chainSorted ScoreV t

/-- C2: each `AddChild`/`addSibling` call on a (non-nil) tree yields a tree
whose payload multiset is exactly the old multiset plus the multiset of the
inserted value; hence over any sequence of such calls inserting distinct
fresh nodes, every inserted node occurs in the final tree exactly once —
none is lost, none duplicated. -/
theorem claim2_insertion_completeness :
    (∀ (α : Type) (v : α) (c s u : ETree α),
      elems (AddChild (node v c s) u) = elems (node v c s) + elems u) ∧
    (∀ (α : Type) (e u : ETree α),
      elems (addSibling e u) = elems e + elems u) :=
  ⟨fun _ v c s u => AddChild_elems v c s u, fun _ e u => addSibling_elems u e⟩

/-- C3: for a root R with 0 points receiving, in order, children A (0), B
(1), C (2, with children D = 9 and E = 10), and F (3), all created at the
same instant (modelled as age 0, as in the test that builds and arranges at
once), Arrange yields a tree whose pre-order child-then-sibling walk of
titles is exactly Root, C, E, D, F, B, A. -/
theorem claim3_scenario_walk :
    walkTitles (Arrange ScoreV treeC3) = ["Root", "C", "E", "D", "F", "B", "A"] := by
  rw [arrange_treeC3]
  rfl

/-- C4: for every non-nil node, `Score()` equals (points + childAggregate +
1e-3) / (ageHours + 2)^1.8 truncated toward zero to 8 decimal digits, where
childAggregate is DECAY times `recursivePoints` of the first child when one
exists and 0 otherwise, and ageHours is seconds since creation divided by
3600 (`scoreSpec` is that formula written from the claim's words). -/
theorem claim4_score_formula (v : Pay) (c s : ETree Pay) :
    ScoreT (node v c s) = scoreSpec v c :=
  ScoreT_eq_scoreSpec v c s

/-- C5, counterexample: a root that received children 1 and 2 by `AddChild`
has mutually consistent parent/child/sibling links, but after one `Arrange`
pass — whose `mergeSort` clears the second half's parent field and whose
`merge` never writes any parent field — consistency is violated. -/
theorem claim5_counterexample :
    consB buildP2.2 none buildP2.1 = true ∧
      consB arrangedP.2 none arrangedP.1 = false :=
  ⟨by decide, by decide⟩

/-- C5, amended: after the splices performed by `AddChild`/`addSibling` when
inserting a fresh childless node into a tree with pairwise-distinct
payloads, every node's parent field is exactly the node through whose child
or sibling link it is reachable; Arrange's merge sort does not preserve
this. -/
theorem claim5_amended {α : Type} [DecidableEq α] (pm : α → Option α)
    (t : ETree α) (o : Option α) (uv : α) (hcons : consB pm o t = true)
    (hnodup : (elems t).Nodup) (hfresh : uv ∉ elems t) :
    consB (AddChildP pm t (node uv nilE nilE)).2 o
      (AddChildP pm t (node uv nilE nilE)).1 = true :=
  AddChildP_consistent pm t o uv hcons hnodup hfresh

/-- Parent assignment of the two-node witness tree for C5. -/
def pmW : Nat → Option Nat := fun n => if n = 1 then some 0 else none

/-- The two-node witness tree for C5: root 0 with child 1. -/
def tW : ETree Nat := node 0 (node 1 nilE nilE) nilE

/-- Witness for the amended C5 at a concrete consistent tree and fresh
node. -/
theorem claim5_witness :
    consB pmW none tW = true ∧ (elems tW).Nodup ∧ (2 : Nat) ∉ elems tW ∧
      consB (AddChildP pmW tW (node 2 nilE nilE)).2 none
        (AddChildP pmW tW (node 2 nilE nilE)).1 = true :=
  ⟨by decide, by decide, by decide,
    claim5_amended pmW tW none 2 (by decide) (by decide) (by decide)⟩

/-- C6, counterexample: with node table keys {1, 2} and a relationship whose
ancestor id 99 is missing, the construction loop panics (nil-pointer
dereference inside `AddChild`); it does not return a "malformed relation"
error — no such error exists in the code. -/
theorem claim6_counterexample :
    materializeRows [(1, 1), (99, 2)] = BuildOutcome.panicked ∧
      materializeRows [(1, 1), (99, 2)] ≠ BuildOutcome.goError "malformed relation" :=
  ⟨by decide, by decide⟩

/-- C6, amended: when the relation set references an ancestor id that is not
a key of the node table (in a non-self relationship), the whole build aborts
— but with a runtime panic, not with a distinct "malformed relation"
error. -/
theorem claim6_amended (rows : List (Int × Int))
    (h : ∃ pc ∈ rows, pc.1 ≠ pc.2 ∧ pc.1 ∉ entriesKeys rows) :
    materializeRows rows = BuildOutcome.panicked :=
  linkRels_panicked (entriesKeys rows) rows h

/-- Witness for the amended C6 at a concrete malformed relation set. -/
theorem claim6_witness :
    (∃ pc ∈ [((99 : Int), (2 : Int))], pc.1 ≠ pc.2 ∧ pc.1 ∉ entriesKeys [(99, 2)]) ∧
      materializeRows [(99, 2)] = BuildOutcome.panicked :=
  ⟨by decide, claim6_amended [(99, 2)] (by decide)⟩

/-- C7, counterexample: two entries identical except for creation time, with
0 upvotes and 5 downvotes and no children — the younger (age 0) scores
strictly BELOW the older (age 48 hours), refuting "the younger entry's
score is greater than or equal to the older's, including when upvotes minus
downvotes is negative". -/
theorem claim7_counterexample : ScoreV payYoung nilE < ScoreV payOld nilE :=
  score_young_lt_old

/-- C7, amended: for two entries identical except creation time, the younger
scores at least the older PROVIDED the score numerator
(points + childAggregate + 1e-3) is nonnegative; with a negative numerator
age decay works in the opposite direction. -/
theorem claim7_amended (t1 t2 : String) (u d : Int) (c : ETree Pay) (a1 a2 : ℝ)
    (h1 : 0 ≤ a1) (h12 : a1 ≤ a2)
    (hnum : 0 ≤ ((u - d : Int) : ℝ) + childPoints c + 1e-3) :
    ScoreV ⟨t2, u, d, a2⟩ c ≤ ScoreV ⟨t1, u, d, a1⟩ c :=
  score_age_mono t1 t2 u d c a1 a2 h1 h12 hnum

/-- Witness for the amended C7: one net upvote, ages 0 and 3600 seconds. -/
theorem claim7_witness :
    (0 : ℝ) ≤ 0 ∧ (0 : ℝ) ≤ 3600 ∧
      (0 ≤ ((1 - 0 : Int) : ℝ) + childPoints nilE + 1e-3) ∧
      ScoreV ⟨"older", 1, 0, 3600⟩ nilE ≤ ScoreV ⟨"newer", 1, 0, 0⟩ nilE :=
  ⟨le_refl 0, by norm_num, by norm_num [childPoints],
    claim7_amended "newer" "older" 1 0 nilE 0 3600 (le_refl 0) (by norm_num)
      (by norm_num [childPoints])⟩

/-- C8, counterexample: on a root with two children of equal truncated score
(identical votes and age, different titles), running Arrange twice returns
the original order while running it once swaps the tied pair — the merge
tie-break emits the second half's head first, so every pass flips ties. -/
theorem claim8_counterexample :
    Arrange ScoreV (Arrange ScoreV treeTie) ≠ Arrange ScoreV treeTie := by
  rw [arrange_arrange_treeTie]
  exact treeTie_ne_arrange

/-- C8, amended: running Arrange twice yields exactly the tree of running it
once PROVIDED no two adjacent siblings of the arranged tree tie on their
truncated scores (every chain strictly descending); with ties the second
pass can permute tied siblings. -/
theorem claim8_amended (t : ETree Pay) (h : sSorted ScoreV (Arrange ScoreV t)) :
    Arrange ScoreV (Arrange ScoreV t) = Arrange ScoreV t :=
  Arrange_of_sSorted ScoreV (Arrange ScoreV t) h

/-- The witness tree for the amended C8: a root with one child. -/
def tW8 : ETree Pay := node payR (node payB nilE nilE) nilE

/-- Witness for the amended C8 at a tie-free concrete tree. -/
theorem claim8_witness :
    sSorted ScoreV (Arrange ScoreV tW8) ∧
      Arrange ScoreV (Arrange ScoreV tW8) = Arrange ScoreV tW8 := by
  have hw : sSorted ScoreV (Arrange ScoreV tW8) := by
    show sSorted ScoreV (node payR (node payB nilE nilE) nilE)
    exact ⟨⟨trivial, trivial, trivial⟩, trivial, trivial⟩
  exact ⟨hw, claim8_amended tW8 hw⟩

/-- The root for the C9 evaluation: entry 0 with a single child 1. -/
def rootC9 : ETree Nat := node 0 (node 1 nilE nilE) nilE

/-- C9, the code evaluated at the failing input: a first `ChildCount()` call
on a node with one descendant returns 1 but leaves `hasChildCount` false
(the source never sets it), so after `AddChild` inserts a second child the
next call recomputes and returns 2 instead of the cached 1 claimed by the
specification. -/
theorem claim9_eval :
    (ChildCount (ChildOf rootC9) 0 false).1 = 1 ∧
      (ChildCount (ChildOf rootC9) 0 false).2.2 = false ∧
      (ChildCount (ChildOf (AddChild rootC9 (node 2 nilE nilE)))
        (ChildCount (ChildOf rootC9) 0 false).2.1
        (ChildCount (ChildOf rootC9) 0 false).2.2).1 = 2 := by
  decide

/-- C10: `Root()` ascends exactly one parent link — it returns the node
itself when its parent field is nil and otherwise its immediate parent;
hence for a node whose parent itself has a non-nil parent the returned node
still has a parent, so it is not the tree's root (roots have no parent). -/
theorem claim10_root_one_step :
    (∀ (α : Type) (pm : α → Option α) (e : α), pm e = none → Root pm e = e) ∧
    (∀ (α : Type) (pm : α → Option α) (e p : α), pm e = some p → Root pm e = p) ∧
    (∀ (α : Type) (pm : α → Option α) (e p q : α),
      pm e = some p → pm p = some q → pm (Root pm e) ≠ none) := by
  refine ⟨?_, ?_, ?_⟩
  · intro α pm e h
    simp [Root, h]
  · intro α pm e p h
    simp [Root, h]
  · intro α pm e p q h1 h2
    simp [Root, h1, h2]

/-- Witness for C10 on the concrete chain 2 → 1 → 0. -/
theorem claim10_witness :
    pmChain 2 = some 1 ∧ pmChain 1 = some 0 ∧ pmChain (Root pmChain 2) ≠ none :=
  ⟨rfl, rfl, claim10_root_one_step.2.2 Nat pmChain 2 1 0 rfl rfl⟩

end Claims

end Forum

